import Mathlib

/-!
Verification of the `status_map_validator` package (file
`status_map_validator/__init__.py`): a directed graph of statuses with a
transition classifier. The Python code is shallowly embedded here:

* networkx `DiGraph` becomes a pair of insertion-ordered duplicate-free
  lists (`nodes`, `edges`);
* networkx `descendants` / `ancestors` (full transitive reachability,
  source excluded) become a worklist closure `reachableFrom`;
* `StatusMap.__init__`, `get_validations` and `validate_transition` are
  translated line by line;
* the `functools.lru_cache` on `get_ancestors` / `get_descendants` is
  modelled by an explicit cache state threaded through a cached variant of
  the classifier.
-/

deriving instance DecidableEq for Except

namespace StatusMapValidator

variable {α : Type} [DecidableEq α]

/-- networkx `DiGraph`: insertion-ordered node and edge lists.
`add_node` / `add_edge` are no-ops on data already present, so both lists
stay duplicate-free. -/
structure DiGraph (α : Type) where
  nodes : List α
  edges : List (α × α)
deriving DecidableEq

/-- networkx `add_node`: appends the node unless it is already present. -/
def addNode (ns : List α) (x : α) : List α :=
  if x ∈ ns then ns else ns ++ [x]

/-- networkx `add_nodes_from`. -/
def addNodesFrom (g : DiGraph α) (xs : List α) : DiGraph α :=
  { g with nodes := xs.foldl addNode g.nodes }

/-- networkx `DiGraph.add_edge`: both endpoints are registered as nodes,
then the edge is appended unless already present. -/
def addEdge (g : DiGraph α) (u v : α) : DiGraph α :=
  { nodes := addNode (addNode g.nodes u) v
    edges := if (u, v) ∈ g.edges then g.edges else g.edges ++ [(u, v)] }

/-- networkx `add_edges_from`. -/
def addEdgesFrom (g : DiGraph α) (es : List (α × α)) : DiGraph α :=
  es.foldl (fun h e => addEdge h e.1 e.2) g

/-- `graph.has_node`. -/
def DiGraph.hasNode (g : DiGraph α) (x : α) : Bool :=
  decide (x ∈ g.nodes)

/-- `graph.has_successor`. -/
def DiGraph.hasSuccessor (g : DiGraph α) (u v : α) : Bool :=
  decide ((u, v) ∈ g.edges)

/-! ### Transitive reachability (networkx `descendants` / `ancestors`)

networkx computes these sets by breadth-first search.  We embed them as a
worklist closure: one `closureStep` scans every edge once and adds the
target of each edge whose source has been seen; the step is iterated
enough times to reach a fixed point. -/

/-- Treat one edge during a closure pass: add its target when the source
has been seen and the target has not. -/
def stepOne (acc : List α) (e : α × α) : List α :=
  if e.1 ∈ acc ∧ e.2 ∉ acc then acc ++ [e.2] else acc

/-- One full pass over the edge list, adding targets of edges whose source
is already in the seen set. -/
def closureStep (es : List (α × α)) (seen : List α) : List α :=
  es.foldl stepOne seen

/-- Iterate `closureStep`. -/
def closureIter (es : List (α × α)) : Nat → List α → List α
  | 0, seen => seen
  | n + 1, seen => closureIter es n (closureStep es seen)

/-- All vertices reachable from `s` by following zero or more edges:
`es.length + 1` passes always reach the closure fixed point. -/
def reachableFrom (es : List (α × α)) (s : α) : List α :=
  closureIter es (es.length + 1) [s]

/-- networkx `descendants(G, source)`: every node reachable from `source`,
`source` itself excluded (the search never re-emits its root). -/
def descendants (g : DiGraph α) (s : α) : List α :=
  (reachableFrom g.edges s).filter (fun t => t ≠ s)

/-- networkx `ancestors(G, source)`: every node with a path to `source`,
i.e. the descendants of `source` in the reversed graph. -/
def ancestors (g : DiGraph α) (s : α) : List α :=
  (reachableFrom (g.edges.map Prod.swap) s).filter (fun t => t ≠ s)

/-- Specification-level reachability: a directed walk using at least one
edge. -/
inductive Reach1 (es : List (α × α)) : α → α → Prop
  | single {a b : α} : (a, b) ∈ es → Reach1 es a b
  | tail {a b c : α} : Reach1 es a b → (b, c) ∈ es → Reach1 es a c

/-- A graph is acyclic when no vertex has a nontrivial walk back to
itself. -/
def Acyclic (es : List (α × α)) : Prop :=
  ∀ x : α, ¬ Reach1 es x x

/-- A cycle passing through both `x` and `y`: a walk from `x` to `y` and a
walk back, whose concatenation is a closed walk containing both. -/
def CycleThrough (es : List (α × α)) (x y : α) : Prop :=
  Reach1 es x y ∧ Reach1 es y x

/-! ### The StatusMap -/

/-- The value attached to one key of the transition specification: either a
plain collection of target statuses, or a Python dict mapping each target
to an attribute bag.  Of the attribute bag the code only ever reads
`attributes.get("validation", [])`, so the bag is embedded as that list of
hook identifiers (absent key and empty list are indistinguishable to the
code). -/
inductive EdgeSpec (α : Type) where
  | plain (targets : List α)
  | meta (entries : List (α × List String))
deriving DecidableEq

/-- The declared targets of one specification entry (`edges` vs
`edges.items()` keys in `__init__`). -/
def EdgeSpec.targets : EdgeSpec α → List α
  | .plain ts => ts
  | .meta entries => entries.map Prod.fst

/-- The `_validations` attribute: `None` while the attribute does not yet
exist (it is created lazily by `_add_validation`), otherwise a dict of
dicts `from_state -> to_state -> validation_method`. -/
abbrev ValIndex (α : Type) := Option (List (α × List (α × String)))

/-- Python `d[k] = v` on an insertion-ordered dict: replace in place when
the key exists, append otherwise. -/
def assocUpdate {β : Type} (l : List (α × β)) (k : α) (v : β) : List (α × β) :=
  if l.any (fun p => decide (p.1 = k)) then
    l.map (fun p => if p.1 = k then (k, v) else p)
  else l ++ [(k, v)]

/-- Python `d.get(k, default)` on an insertion-ordered dict. -/
def assocGetD {β : Type} (l : List (α × β)) (k : α) (d : β) : β :=
  match l.find? (fun p => decide (p.1 = k)) with
  | some p => p.2
  | none => d

/-- `StatusMap._add_validation`: create `_validations` if absent, then set
`_validations[from_state][to_state] = validation_method` (note: a single
method is stored, overwriting any earlier one for the same edge). -/
def addValidation (vals : ValIndex α) (f t : α) (m : String) : ValIndex α :=
  let d := vals.getD []
  some (assocUpdate d f (assocUpdate (assocGetD d f []) t m))

/-- `StatusMap._add_transition_validations`: for each target, read the
`validation` list and register each method in turn. -/
def addTransitionValidations (vals : ValIndex α) (f : α)
    (entries : List (α × List String)) : ValIndex α :=
  entries.foldl (fun vals p => p.2.foldl (fun vals m => addValidation vals f p.1 m) vals) vals

/-- The constructed map: the directed graph plus the `_validations` side
index. -/
structure StatusMap (α : Type) where
  graph : DiGraph α
  validations : ValIndex α
deriving DecidableEq

/-- `transitions[node]`: dict lookup (keys of a Python dict are unique, so
the first match is the match). -/
def lookupSpec (spec : List (α × EdgeSpec α)) (k : α) : Option (EdgeSpec α) :=
  (spec.find? (fun p => decide (p.1 = k))).map Prod.snd

/-- One iteration of the `for node in nodes` loop of `StatusMap.__init__`:
look up the node's edge specification, register validations when it is a
dict, and add the edges. -/
def buildStep (spec : List (α × EdgeSpec α)) (acc : DiGraph α × ValIndex α)
    (node : α) : DiGraph α × ValIndex α :=
  match lookupSpec spec node with
  | none => acc
  | some es =>
    let vals := match es with
      | .meta entries => addTransitionValidations acc.2 node entries
      | .plain _ => acc.2
    (addEdgesFrom acc.1 (es.targets.map (fun t => (node, t))), vals)

/-- `StatusMap.__init__`: register every key of the specification as a
node, snapshot the node list, then for each of those nodes add its declared
edges (and validations for dict-shaped entries).  The specification is a
Python dict, embedded as an insertion-ordered association list with
pairwise-distinct keys. -/
def StatusMap.build (spec : List (α × EdgeSpec α)) : StatusMap α :=
  let g0 := addNodesFrom ⟨[], []⟩ (spec.map Prod.fst)
  let res := g0.nodes.foldl (buildStep spec) (g0, none)
  { graph := res.1, validations := res.2 }

/-- `StatusMap.__getitem__`: the adjacency of a node, `KeyError` (here
`none`) when the node is absent. -/
def StatusMap.getitem (m : StatusMap α) (s : α) : Option (List α) :=
  if s ∈ m.graph.nodes then
    some (m.graph.edges.filterMap (fun e => if e.1 = s then some e.2 else none))
  else none

/-- Membership via the `Mapping` mixin: `__contains__` calls `__getitem__`
and catches `KeyError`. -/
def StatusMap.containsStatus (m : StatusMap α) (s : α) : Bool :=
  (m.getitem s).isSome

/-- `StatusMap.__len__` = `number_of_nodes()`. -/
def StatusMap.statusCount (m : StatusMap α) : Nat :=
  m.graph.nodes.length

/-- `StatusMap.__iter__` = `iter(self._graph.nodes)`. -/
def StatusMap.iterStatuses (m : StatusMap α) : List α :=
  m.graph.nodes

/-- `StatusMap.statuses` = `tuple(self._graph.nodes)`. -/
def StatusMap.statuses (m : StatusMap α) : List α :=
  m.graph.nodes

/-- The possible outcomes of `get_validations`: the dict default `[]`, a
stored single validation method, or the `AttributeError` raised when the
`_validations` attribute was never created. -/
inductive ValidationResult where
  | attributeError
  | hooks (l : List String)
  | hook (m : String)
deriving DecidableEq

/-- `StatusMap.get_validations`:
`self._validations.get(from_state, {}).get(to_state, [])`, which raises
`AttributeError` when `_validations` was never created. -/
def StatusMap.getValidations (m : StatusMap α) (f t : α) : ValidationResult :=
  match m.validations with
  | none => .attributeError
  | some d =>
    match (assocGetD d f []).find? (fun p => decide (p.1 = t)) with
    | some p => .hook p.2
    | none => .hooks []

/-- The five typed failures of `validate_transition`.  `StatusNotFoundError`
is split by the role named in its message (`"from_status ... not found"`
vs `"to_status ... not found"`); the remaining errors carry the pair named
in their messages. -/
inductive TransitionError (α : Type) where
  | statusNotFoundFrom (s : α)
  | statusNotFoundTo (s : α)
  | ambiguousTransition (f t : α)
  | futureTransition (f t : α)
  | pastTransition (f t : α)
  | transitionNotFound (f t : α)
deriving DecidableEq

/-- `StatusMap.validate_transition`, translated branch for branch. -/
def StatusMap.validateTransition (m : StatusMap α) (f t : α) :
    Except (TransitionError α) Unit :=
  if f ∉ m.graph.nodes then .error (.statusNotFoundFrom f)
  else if t ∉ m.graph.nodes then .error (.statusNotFoundTo t)
  else if f = t ∨ (f, t) ∈ m.graph.edges then .ok ()
  else
    let is_ancestor := t ∈ ancestors m.graph f
    let is_descendant := t ∈ descendants m.graph f
    if is_ancestor ∧ is_descendant then .error (.ambiguousTransition f t)
    else if is_descendant then .error (.futureTransition f t)
    else if is_ancestor then .error (.pastTransition f t)
    else .error (.transitionNotFound f t)

/-- Structural invariant of every networkx graph: both endpoints of every
edge are nodes. -/
def GraphWF (g : DiGraph α) : Prop :=
  ∀ e ∈ g.edges, e.1 ∈ g.nodes ∧ e.2 ∈ g.nodes

/-! ### The reachability cache

`get_ancestors` / `get_descendants` are `@lru_cache(maxsize=512)`
staticmethods keyed by `(graph, status)`.  The cache is modelled as an
explicit association list per direction; an eviction only deletes entries,
which leaves every well-formedness statement below intact (a deleted entry
is simply recomputed). -/

structure ReachCache (α : Type) where
  anc : List ((DiGraph α × α) × List α)
  desc : List ((DiGraph α × α) × List α)

/-- Cached `StatusMap.get_ancestors`: return the stored set on a hit,
otherwise compute `ancestors` and store it. -/
def getAncestorsCached (c : ReachCache α) (g : DiGraph α) (s : α) :
    List α × ReachCache α :=
  match c.anc.find? (fun p => decide (p.1 = (g, s))) with
  | some p => (p.2, c)
  | none => (ancestors g s, { c with anc := c.anc ++ [((g, s), ancestors g s)] })

/-- Cached `StatusMap.get_descendants`. -/
def getDescendantsCached (c : ReachCache α) (g : DiGraph α) (s : α) :
    List α × ReachCache α :=
  match c.desc.find? (fun p => decide (p.1 = (g, s))) with
  | some p => (p.2, c)
  | none => (descendants g s, { c with desc := c.desc ++ [((g, s), descendants g s)] })

/-- A cache state is well formed when every stored entry equals the set the
code would compute for its key.  Every reachable cache state is of this
shape: entries are only ever inserted by the two cached getters. -/
def ReachCache.WF (c : ReachCache α) : Prop :=
  (∀ p ∈ c.anc, p.2 = ancestors p.1.1 p.1.2) ∧
    (∀ p ∈ c.desc, p.2 = descendants p.1.1 p.1.2)

/-- `validate_transition` with the `lru_cache` state made explicit: the
classifier consults `get_ancestors` and `get_descendants` through the
cache and returns the (possibly grown) cache alongside its outcome. -/
def StatusMap.validateTransitionCached (m : StatusMap α) (c : ReachCache α)
    (f t : α) : Except (TransitionError α) Unit × ReachCache α :=
  if f ∉ m.graph.nodes then (.error (.statusNotFoundFrom f), c)
  else if t ∉ m.graph.nodes then (.error (.statusNotFoundTo t), c)
  else if f = t ∨ (f, t) ∈ m.graph.edges then (.ok (), c)
  else
    let r1 := getAncestorsCached c m.graph f
    let r2 := getDescendantsCached r1.2 m.graph f
    let is_ancestor := t ∈ r1.1
    let is_descendant := t ∈ r2.1
    (if is_ancestor ∧ is_descendant then .error (.ambiguousTransition f t)
     else if is_descendant then .error (.futureTransition f t)
     else if is_ancestor then .error (.pastTransition f t)
     else .error (.transitionNotFound f t), r2.2)

/-! ### Construction-time failure model

`StatusMap.__init__` starts with `graph.add_nodes_from(transitions.keys())`.
A well-shaped specification is a dict; calling the constructor with a
non-mapping value (a list, a string, ...) raises `AttributeError` at that
very first line, because such values have no `.keys` attribute.  No line of
`__init__` references `SpecificationError`. -/

inductive BuildInput (α : Type) where
  | mapping (spec : List (α × EdgeSpec α))
  | nonMapping
deriving DecidableEq

inductive ConstructionError where
  | specificationError
  | attributeError
deriving DecidableEq

/-- Outcome of `StatusMap(transitions)`: a mapping-shaped input builds the
map; anything else fails at `transitions.keys()` with `AttributeError`. -/
def tryInit : BuildInput α → Except ConstructionError (StatusMap α)
  | .mapping spec => .ok (StatusMap.build spec)
  | .nonMapping => .error .attributeError

/-! ### Concrete example specifications

Small transition specifications used to evaluate the definitions on
closed inputs. -/

/-- A linear chain 0 -> 1 -> 2. -/
def specLinear : List (Nat × EdgeSpec Nat) :=
  [(0, .plain [1]), (1, .plain [2]), (2, .plain [])]

/-- A three-cycle 0 -> 1 -> 2 -> 0. -/
def specCycle : List (Nat × EdgeSpec Nat) :=
  [(0, .plain [1]), (1, .plain [2]), (2, .plain [0])]

/-- Two unrelated components 0 -> 1 and 2 -> 3. -/
def specSplit : List (Nat × EdgeSpec Nat) :=
  [(0, .plain [1]), (2, .plain [3])]

/-- A single declared edge 0 -> 1; status 1 has no own entry. -/
def specOne : List (Nat × EdgeSpec Nat) :=
  [(0, .plain [1])]

/-- One isolated status with no outgoing transitions. -/
def specIso : List (Nat × EdgeSpec Nat) :=
  [(0, .plain [])]

/-- A plain entry mixed with a metadata-mapping entry. -/
def specMix : List (Nat × EdgeSpec Nat) :=
  [(0, .plain [1]), (2, .meta [(3, [])])]

/-- A metadata entry declaring two validation hooks for the edge a -> b. -/
def specHooks : List (String × EdgeSpec String) :=
  [("a", .meta [("b", ["v1", "v2"])])]

/-- A specification that declares no validation hooks anywhere. -/
def specNoHooks : List (String × EdgeSpec String) :=
  [("a", .plain ["b"])]

/-- The map used to exercise the reachability cache. -/
def mapCache : StatusMap Nat :=
  StatusMap.build [(0, .plain [1]), (2, .plain [])]

/-- A cache state already populated with the ancestor set of status 0. -/
def cachePre : ReachCache Nat :=
  ⟨[((mapCache.graph, 0), ancestors mapCache.graph 0)], []⟩

/-! ## Lemmas about the closure computation -/

theorem stepOne_eq_or (acc : List α) (e : α × α) :
    stepOne acc e = acc ∨
      (stepOne acc e = acc ++ [e.2] ∧ e.1 ∈ acc ∧ e.2 ∉ acc) := by
  unfold stepOne
  by_cases h : e.1 ∈ acc ∧ e.2 ∉ acc
  · exact Or.inr ⟨if_pos h, h⟩
  · exact Or.inl (if_neg h)

theorem subset_stepOne (acc : List α) (e : α × α) : acc ⊆ stepOne acc e := by
  rcases stepOne_eq_or acc e with h | ⟨h, -, -⟩ <;> rw [h]
  · exact List.Subset.refl acc
  · exact List.subset_append_left acc [e.2]

theorem length_le_stepOne (acc : List α) (e : α × α) :
    acc.length ≤ (stepOne acc e).length := by
  rcases stepOne_eq_or acc e with h | ⟨h, -, -⟩ <;> rw [h] <;> simp

theorem mem_stepOne {acc : List α} {e : α × α} {x : α} (h : x ∈ stepOne acc e) :
    x ∈ acc ∨ x = e.2 := by
  rcases stepOne_eq_or acc e with h1 | ⟨h1, -, -⟩ <;> rw [h1] at h
  · exact Or.inl h
  · simpa using h

theorem nodup_stepOne {acc : List α} {e : α × α} (h : acc.Nodup) :
    (stepOne acc e).Nodup := by
  rcases stepOne_eq_or acc e with h1 | ⟨h1, -, h2⟩ <;> rw [h1]
  · exact h
  · simp [List.nodup_append, h, h2]

theorem closureStep_nil (seen : List α) : closureStep [] seen = seen := rfl

theorem closureStep_cons (e : α × α) (es : List (α × α)) (seen : List α) :
    closureStep (e :: es) seen = closureStep es (stepOne seen e) := rfl

theorem subset_closureStep (es : List (α × α)) (seen : List α) :
    seen ⊆ closureStep es seen := by
  induction es generalizing seen with
  | nil => exact List.Subset.refl seen
  | cons e es ih =>
    rw [closureStep_cons]
    exact (subset_stepOne seen e).trans (ih _)

theorem length_le_closureStep (es : List (α × α)) (seen : List α) :
    seen.length ≤ (closureStep es seen).length := by
  induction es generalizing seen with
  | nil => exact Nat.le_refl _
  | cons e es ih =>
    rw [closureStep_cons]
    exact (length_le_stepOne seen e).trans (ih _)

theorem mem_closureStep {es : List (α × α)} {seen : List α} {x : α}
    (h : x ∈ closureStep es seen) : x ∈ seen ∨ x ∈ es.map Prod.snd := by
  induction es generalizing seen with
  | nil => exact Or.inl h
  | cons e es ih =>
    rw [closureStep_cons] at h
    rcases ih h with h1 | h1
    · rcases mem_stepOne h1 with h2 | h2
      · exact Or.inl h2
      · exact Or.inr (by simp [h2])
    · exact Or.inr (by simp; exact Or.inr (by simpa using h1))

theorem nodup_closureStep {es : List (α × α)} {seen : List α} (h : seen.Nodup) :
    (closureStep es seen).Nodup := by
  induction es generalizing seen with
  | nil => exact h
  | cons e es ih =>
    rw [closureStep_cons]
    exact ih (nodup_stepOne h)

theorem closureStep_eq_or_lt (es : List (α × α)) (seen : List α) :
    closureStep es seen = seen ∨ seen.length < (closureStep es seen).length := by
  induction es generalizing seen with
  | nil => exact Or.inl rfl
  | cons e es ih =>
    rw [closureStep_cons]
    rcases stepOne_eq_or seen e with h | ⟨h, -, -⟩
    · rw [h]; exact ih seen
    · refine Or.inr (Nat.lt_of_lt_of_le ?_ (length_le_closureStep es _))
      rw [h]; simp

theorem closureStep_eq_of_closed {es : List (α × α)} {seen : List α}
    (hcl : ∀ e ∈ es, e.1 ∈ seen → e.2 ∈ seen) : closureStep es seen = seen := by
  induction es with
  | nil => rfl
  | cons e es ih =>
    rw [closureStep_cons]
    have h1 : stepOne seen e = seen := by
      unfold stepOne
      rw [if_neg]
      rintro ⟨h2, h3⟩
      exact h3 (hcl e (by simp) h2)
    rw [h1]
    exact ih (fun e2 he2 => hcl e2 (by simp [he2]))

theorem closed_of_closureStep_eq {es : List (α × α)} {seen : List α}
    (h : closureStep es seen = seen) : ∀ e ∈ es, e.1 ∈ seen → e.2 ∈ seen := by
  induction es generalizing seen with
  | nil => intro e he; cases he
  | cons e es ih =>
    rw [closureStep_cons] at h
    have hlen : (stepOne seen e).length = seen.length := by
      have h1 := length_le_stepOne seen e
      have h2 := length_le_closureStep es (stepOne seen e)
      rw [h] at h2
      omega
    have hstep : stepOne seen e = seen := by
      rcases stepOne_eq_or seen e with h1 | ⟨h1, -, -⟩
      · exact h1
      · rw [h1] at hlen; simp at hlen
    rw [hstep] at h
    intro e2 he2 hsrc
    rcases List.mem_cons.mp he2 with rfl | he2
    · by_contra htgt
      have heq : stepOne seen e2 = seen ++ [e2.2] := by
        unfold stepOne; rw [if_pos ⟨hsrc, htgt⟩]
      rw [hstep] at heq
      have := congrArg List.length heq
      simp at this
    · exact ih h e2 he2 hsrc

theorem sound_closureStep {es es0 : List (α × α)} {seen : List α} {s : α}
    (hes : ∀ e ∈ es, e ∈ es0)
    (hinv : ∀ x ∈ seen, x = s ∨ Reach1 es0 s x) :
    ∀ x ∈ closureStep es seen, x = s ∨ Reach1 es0 s x := by
  induction es generalizing seen with
  | nil => exact hinv
  | cons e es ih =>
    rw [closureStep_cons]
    apply ih (fun e2 he2 => hes e2 (by simp [he2]))
    intro x hx
    rcases stepOne_eq_or seen e with h1 | ⟨h1, hsrc, -⟩
    · rw [h1] at hx; exact hinv x hx
    · rw [h1] at hx
      rcases List.mem_append.mp hx with h2 | h2
      · exact hinv x h2
      · have hx2 : x = e.2 := by simpa using h2
        subst hx2
        have hmem : (e.1, e.2) ∈ es0 := by
          simpa using hes e (List.mem_cons_self e es)
        rcases hinv e.1 hsrc with h3 | h3
        · exact Or.inr (h3 ▸ Reach1.single hmem)
        · exact Or.inr (Reach1.tail h3 hmem)

theorem closureIter_zero (es : List (α × α)) (seen : List α) :
    closureIter es 0 seen = seen := rfl

theorem closureIter_succ (es : List (α × α)) (n : Nat) (seen : List α) :
    closureIter es (n + 1) seen = closureIter es n (closureStep es seen) := rfl

theorem subset_closureIter (es : List (α × α)) (n : Nat) (seen : List α) :
    seen ⊆ closureIter es n seen := by
  induction n generalizing seen with
  | zero => exact List.Subset.refl seen
  | succ n ih =>
    rw [closureIter_succ]
    exact (subset_closureStep es seen).trans (ih _)

theorem mem_closureIter {es : List (α × α)} {n : Nat} {seen : List α} {x : α}
    (h : x ∈ closureIter es n seen) : x ∈ seen ∨ x ∈ es.map Prod.snd := by
  induction n generalizing seen with
  | zero => exact Or.inl h
  | succ n ih =>
    rw [closureIter_succ] at h
    rcases ih h with h1 | h1
    · exact mem_closureStep h1
    · exact Or.inr h1

theorem nodup_closureIter {es : List (α × α)} {n : Nat} {seen : List α}
    (h : seen.Nodup) : (closureIter es n seen).Nodup := by
  induction n generalizing seen with
  | zero => exact h
  | succ n ih =>
    rw [closureIter_succ]
    exact ih (nodup_closureStep h)

theorem sound_closureIter {es : List (α × α)} {n : Nat} {seen : List α} {s : α}
    (hinv : ∀ x ∈ seen, x = s ∨ Reach1 es s x) :
    ∀ x ∈ closureIter es n seen, x = s ∨ Reach1 es s x := by
  induction n generalizing seen with
  | zero => exact hinv
  | succ n ih =>
    rw [closureIter_succ]
    exact ih (sound_closureStep (fun e he => he) hinv)

theorem closureIter_fix {es : List (α × α)} {seen : List α}
    (h : closureStep es seen = seen) (n : Nat) : closureIter es n seen = seen := by
  induction n with
  | zero => rfl
  | succ n ih => rw [closureIter_succ, h]; exact ih

theorem closureStep_closureIter_fix {es : List (α × α)} (L : List α)
    (htgt : ∀ e ∈ es, e.2 ∈ L) :
    ∀ (n : Nat) (seen : List α), (∀ x ∈ seen, x ∈ L) → seen.Nodup →
      L.length ≤ seen.length + n →
      closureStep es (closureIter es n seen) = closureIter es n seen := by
  intro n
  induction n with
  | zero =>
    intro seen hsub hnd hlen
    rw [closureIter_zero]
    have hfin : seen.toFinset = L.toFinset := by
      apply Finset.eq_of_subset_of_card_le
      · intro x hx
        rw [List.mem_toFinset] at hx ⊢
        exact hsub x hx
      · calc L.toFinset.card ≤ L.length := L.toFinset_card_le
          _ ≤ seen.length + 0 := hlen
          _ = seen.toFinset.card := by
              rw [Nat.add_zero, List.toFinset_card_of_nodup hnd]
    apply closureStep_eq_of_closed
    intro e he _
    have h1 : e.2 ∈ L.toFinset := List.mem_toFinset.mpr (htgt e he)
    rw [← hfin] at h1
    exact List.mem_toFinset.mp h1
  | succ n ih =>
    intro seen hsub hnd hlen
    by_cases hfix : closureStep es seen = seen
    · rw [closureIter_succ, hfix, closureIter_fix hfix]
      exact hfix
    · rw [closureIter_succ]
      apply ih
      · intro x hx
        rcases mem_closureStep hx with h | h
        · exact hsub x h
        · rw [List.mem_map] at h
          obtain ⟨e, he, rfl⟩ := h
          exact htgt e he
      · exact nodup_closureStep hnd
      · have hlt : seen.length < (closureStep es seen).length := by
          rcases closureStep_eq_or_lt es seen with h | h
          · exact absurd h hfix
          · exact h
        omega

theorem self_mem_reachableFrom (es : List (α × α)) (s : α) :
    s ∈ reachableFrom es s :=
  subset_closureIter es (es.length + 1) [s] (by simp)

theorem reachableFrom_closed {es : List (α × α)} {s : α} :
    ∀ e ∈ es, e.1 ∈ reachableFrom es s → e.2 ∈ reachableFrom es s := by
  apply closed_of_closureStep_eq
  apply closureStep_closureIter_fix (s :: es.map Prod.snd)
  · intro e he
    simp only [List.mem_cons, List.mem_map]
    exact Or.inr ⟨e, he, rfl⟩
  · intro x hx
    simp only [List.mem_singleton] at hx
    simp [hx]
  · simp
  · simp

theorem reachableFrom_sound {es : List (α × α)} {s x : α}
    (h : x ∈ reachableFrom es s) : x = s ∨ Reach1 es s x := by
  refine sound_closureIter ?_ x h
  intro y hy
  simp only [List.mem_singleton] at hy
  exact Or.inl hy

theorem reachableFrom_complete {es : List (α × α)} {s t : α}
    (h : Reach1 es s t) : t ∈ reachableFrom es s := by
  induction h with
  | single hab => exact reachableFrom_closed _ hab (self_mem_reachableFrom es _)
  | tail hr he ih => exact reachableFrom_closed _ he ih

theorem mem_reachableFrom {es : List (α × α)} {s x : α} :
    x ∈ reachableFrom es s ↔ (x = s ∨ Reach1 es s x) := by
  constructor
  · exact reachableFrom_sound
  · rintro (rfl | h)
    · exact self_mem_reachableFrom es x
    · exact reachableFrom_complete h

theorem Reach1.trans {es : List (α × α)} {a b c : α}
    (h1 : Reach1 es a b) (h2 : Reach1 es b c) : Reach1 es a c := by
  induction h2 with
  | single h => exact Reach1.tail h1 h
  | tail _ h ih => exact Reach1.tail ih h

theorem Reach1.head {es : List (α × α)} {a b c : α}
    (h : (a, b) ∈ es) (h2 : Reach1 es b c) : Reach1 es a c :=
  Reach1.trans (Reach1.single h) h2

theorem mem_map_swap {es : List (α × α)} {a b : α} :
    (a, b) ∈ es.map Prod.swap ↔ (b, a) ∈ es := by
  constructor
  · intro h
    rw [List.mem_map] at h
    obtain ⟨e, he, heq⟩ := h
    have h1 : e = (b, a) := by simpa using congrArg Prod.swap heq
    rw [h1] at he
    exact he
  · intro h
    exact List.mem_map.mpr ⟨(b, a), h, rfl⟩

theorem reach1_swap_iff {es : List (α × α)} {a b : α} :
    Reach1 (es.map Prod.swap) a b ↔ Reach1 es b a := by
  constructor
  · intro h
    induction h with
    | single h => exact Reach1.single (mem_map_swap.mp h)
    | tail h1 h2 ih => exact Reach1.head (mem_map_swap.mp h2) ih
  · intro h
    induction h with
    | single h =>
      exact Reach1.single (List.mem_map.mpr ⟨_, h, rfl⟩)
    | tail h1 h2 ih =>
      exact Reach1.head (List.mem_map.mpr ⟨_, h2, rfl⟩) ih

theorem mem_descendants {g : DiGraph α} {s t : α} :
    t ∈ descendants g s ↔ (t ≠ s ∧ Reach1 g.edges s t) := by
  unfold descendants
  rw [List.mem_filter]
  simp only [mem_reachableFrom, decide_eq_true_eq]
  constructor
  · rintro ⟨rfl | h, hne⟩
    · exact absurd rfl hne
    · exact ⟨hne, h⟩
  · rintro ⟨hne, h⟩
    exact ⟨Or.inr h, hne⟩

theorem mem_ancestors {g : DiGraph α} {s t : α} :
    t ∈ ancestors g s ↔ (t ≠ s ∧ Reach1 g.edges t s) := by
  unfold ancestors
  rw [List.mem_filter]
  simp only [mem_reachableFrom, decide_eq_true_eq, reach1_swap_iff]
  constructor
  · rintro ⟨rfl | h, hne⟩
    · exact absurd rfl hne
    · exact ⟨hne, h⟩
  · rintro ⟨hne, h⟩
    exact ⟨Or.inr h, hne⟩

theorem Reach1.head_decomp {es : List (α × α)} {a c : α} (h : Reach1 es a c) :
    ∃ b, (a, b) ∈ es ∧ (b = c ∨ Reach1 es b c) := by
  induction h with
  | single h => exact ⟨_, h, Or.inl rfl⟩
  | tail h1 h2 ih =>
    obtain ⟨b, hab, hbc⟩ := ih
    refine ⟨b, hab, Or.inr ?_⟩
    rcases hbc with rfl | hbc
    · exact Reach1.single h2
    · exact Reach1.tail hbc h2

/-- A decidable sufficient condition for acyclicity: no edge closes a walk
back to its own source. -/
theorem acyclic_of_check {es : List (α × α)}
    (h : ∀ e ∈ es, e.1 ∉ reachableFrom es e.2) : Acyclic es := by
  intro x hx
  obtain ⟨b, hxb, hbx⟩ := hx.head_decomp
  apply h (x, b) hxb
  rcases hbx with rfl | hbx
  · exact self_mem_reachableFrom es _
  · exact reachableFrom_complete hbx

/-! ## Lemmas about graph construction -/

theorem mem_addNode {ns : List α} {x y : α} :
    x ∈ addNode ns y ↔ (x ∈ ns ∨ x = y) := by
  unfold addNode
  by_cases h : y ∈ ns
  · rw [if_pos h]
    constructor
    · exact Or.inl
    · rintro (hx | rfl)
      · exact hx
      · exact h
  · rw [if_neg h]
    simp

theorem nodup_addNode {ns : List α} (h : ns.Nodup) (y : α) :
    (addNode ns y).Nodup := by
  unfold addNode
  by_cases hy : y ∈ ns
  · rw [if_pos hy]; exact h
  · rw [if_neg hy]; simp [List.nodup_append, h, hy]

theorem mem_foldl_addNode {xs ns : List α} {x : α} :
    x ∈ xs.foldl addNode ns ↔ (x ∈ ns ∨ x ∈ xs) := by
  induction xs generalizing ns with
  | nil => simp
  | cons y xs ih =>
    rw [List.foldl_cons, ih, mem_addNode]
    simp only [List.mem_cons]
    tauto

theorem nodup_foldl_addNode {xs ns : List α} (h : ns.Nodup) :
    (xs.foldl addNode ns).Nodup := by
  induction xs generalizing ns with
  | nil => exact h
  | cons y xs ih => exact ih (nodup_addNode h y)

theorem mem_edges_addEdge {g : DiGraph α} {u v : α} {e : α × α} :
    e ∈ (addEdge g u v).edges ↔ (e ∈ g.edges ∨ e = (u, v)) := by
  unfold addEdge
  by_cases h : (u, v) ∈ g.edges
  · rw [if_pos h]
    constructor
    · exact Or.inl
    · rintro (hx | rfl)
      · exact hx
      · exact h
  · rw [if_neg h]
    simp

theorem mem_nodes_addEdge {g : DiGraph α} {u v x : α} :
    x ∈ (addEdge g u v).nodes ↔ (x ∈ g.nodes ∨ x = u ∨ x = v) := by
  unfold addEdge
  simp only [mem_addNode]
  tauto

theorem nodup_nodes_addEdge {g : DiGraph α} (h : g.nodes.Nodup) (u v : α) :
    (addEdge g u v).nodes.Nodup :=
  nodup_addNode (nodup_addNode h u) v

theorem graphWF_addEdge {g : DiGraph α} (h : GraphWF g) (u v : α) :
    GraphWF (addEdge g u v) := by
  intro e he
  rw [mem_edges_addEdge] at he
  rcases he with he | rfl
  · obtain ⟨h1, h2⟩ := h e he
    exact ⟨mem_nodes_addEdge.mpr (Or.inl h1), mem_nodes_addEdge.mpr (Or.inl h2)⟩
  · exact ⟨mem_nodes_addEdge.mpr (Or.inr (Or.inl rfl)),
      mem_nodes_addEdge.mpr (Or.inr (Or.inr rfl))⟩

theorem mem_edges_addEdgesFrom {g : DiGraph α} {l : List (α × α)} {e : α × α} :
    e ∈ (addEdgesFrom g l).edges ↔ (e ∈ g.edges ∨ e ∈ l) := by
  unfold addEdgesFrom
  induction l generalizing g with
  | nil => simp
  | cons e2 l ih =>
    rw [List.foldl_cons, ih, mem_edges_addEdge]
    simp only [List.mem_cons]
    tauto

theorem mem_nodes_addEdgesFrom {g : DiGraph α} {l : List (α × α)} {x : α}
    (h : x ∈ g.nodes) : x ∈ (addEdgesFrom g l).nodes := by
  unfold addEdgesFrom
  induction l generalizing g with
  | nil => exact h
  | cons e l ih =>
    rw [List.foldl_cons]
    exact ih (mem_nodes_addEdge.mpr (Or.inl h))

theorem nodup_nodes_addEdgesFrom {g : DiGraph α} {l : List (α × α)}
    (h : g.nodes.Nodup) : (addEdgesFrom g l).nodes.Nodup := by
  unfold addEdgesFrom
  induction l generalizing g with
  | nil => exact h
  | cons e l ih =>
    rw [List.foldl_cons]
    exact ih (nodup_nodes_addEdge h e.1 e.2)

theorem graphWF_addEdgesFrom {g : DiGraph α} {l : List (α × α)}
    (h : GraphWF g) : GraphWF (addEdgesFrom g l) := by
  unfold addEdgesFrom
  induction l generalizing g with
  | nil => exact h
  | cons e l ih =>
    rw [List.foldl_cons]
    exact ih (graphWF_addEdge h e.1 e.2)

theorem buildStep_nodes_mono {spec : List (α × EdgeSpec α)}
    {acc : DiGraph α × ValIndex α} {node x : α}
    (h : x ∈ acc.1.nodes) : x ∈ (buildStep spec acc node).1.nodes := by
  unfold buildStep
  split
  · exact h
  · exact mem_nodes_addEdgesFrom h

theorem buildStep_edges_mono {spec : List (α × EdgeSpec α)}
    {acc : DiGraph α × ValIndex α} {node : α} {e : α × α}
    (h : e ∈ acc.1.edges) : e ∈ (buildStep spec acc node).1.edges := by
  unfold buildStep
  split
  · exact h
  · exact mem_edges_addEdgesFrom.mpr (Or.inl h)

theorem buildStep_nodes_nodup {spec : List (α × EdgeSpec α)}
    {acc : DiGraph α × ValIndex α} {node : α}
    (h : acc.1.nodes.Nodup) : (buildStep spec acc node).1.nodes.Nodup := by
  unfold buildStep
  split
  · exact h
  · exact nodup_nodes_addEdgesFrom h

theorem buildStep_wf {spec : List (α × EdgeSpec α)}
    {acc : DiGraph α × ValIndex α} {node : α}
    (h : GraphWF acc.1) : GraphWF (buildStep spec acc node).1 := by
  unfold buildStep
  split
  · exact h
  · exact graphWF_addEdgesFrom h

theorem buildStep_edge_of_lookup {spec : List (α × EdgeSpec α)}
    {acc : DiGraph α × ValIndex α} {node b : α} {es : EdgeSpec α}
    (hl : lookupSpec spec node = some es) (hb : b ∈ es.targets) :
    (node, b) ∈ (buildStep spec acc node).1.edges := by
  unfold buildStep
  rw [hl]
  exact mem_edges_addEdgesFrom.mpr (Or.inr (List.mem_map.mpr ⟨b, hb, rfl⟩))

theorem foldl_buildStep_nodes_mono {spec : List (α × EdgeSpec α)}
    {l : List α} {acc : DiGraph α × ValIndex α} {x : α}
    (h : x ∈ acc.1.nodes) : x ∈ (l.foldl (buildStep spec) acc).1.nodes := by
  induction l generalizing acc with
  | nil => exact h
  | cons node l ih =>
    rw [List.foldl_cons]
    exact ih (buildStep_nodes_mono h)

theorem foldl_buildStep_edges_mono {spec : List (α × EdgeSpec α)}
    {l : List α} {acc : DiGraph α × ValIndex α} {e : α × α}
    (h : e ∈ acc.1.edges) : e ∈ (l.foldl (buildStep spec) acc).1.edges := by
  induction l generalizing acc with
  | nil => exact h
  | cons node l ih =>
    rw [List.foldl_cons]
    exact ih (buildStep_edges_mono h)

theorem foldl_buildStep_nodes_nodup {spec : List (α × EdgeSpec α)}
    {l : List α} {acc : DiGraph α × ValIndex α}
    (h : acc.1.nodes.Nodup) : (l.foldl (buildStep spec) acc).1.nodes.Nodup := by
  induction l generalizing acc with
  | nil => exact h
  | cons node l ih =>
    rw [List.foldl_cons]
    exact ih (buildStep_nodes_nodup h)

theorem foldl_buildStep_wf {spec : List (α × EdgeSpec α)}
    {l : List α} {acc : DiGraph α × ValIndex α}
    (h : GraphWF acc.1) : GraphWF (l.foldl (buildStep spec) acc).1 := by
  induction l generalizing acc with
  | nil => exact h
  | cons node l ih =>
    rw [List.foldl_cons]
    exact ih (buildStep_wf h)

theorem foldl_buildStep_edge {spec : List (α × EdgeSpec α)}
    {l : List α} {acc : DiGraph α × ValIndex α} {a b : α} {es : EdgeSpec α}
    (ha : a ∈ l) (hl : lookupSpec spec a = some es) (hb : b ∈ es.targets) :
    (a, b) ∈ (l.foldl (buildStep spec) acc).1.edges := by
  induction l generalizing acc with
  | nil => cases ha
  | cons node l ih =>
    rw [List.foldl_cons]
    rcases List.mem_cons.mp ha with rfl | ha
    · exact foldl_buildStep_edges_mono (buildStep_edge_of_lookup hl hb)
    · exact ih ha

theorem lookupSpec_of_mem {spec : List (α × EdgeSpec α)} {a : α} {es : EdgeSpec α}
    (hnd : (spec.map Prod.fst).Nodup) (h : (a, es) ∈ spec) :
    lookupSpec spec a = some es := by
  induction spec with
  | nil => cases h
  | cons p rest ih =>
    rw [List.map_cons, List.nodup_cons] at hnd
    rcases List.mem_cons.mp h with rfl | h
    · unfold lookupSpec
      rw [List.find?_cons_of_pos _ (by simp)]
      rfl
    · have hne : p.1 ≠ a := by
        intro heq
        exact hnd.1 (heq ▸ List.mem_map.mpr ⟨(a, es), h, rfl⟩)
      unfold lookupSpec
      rw [List.find?_cons_of_neg _ (by simpa using hne)]
      exact ih hnd.2 h

theorem build_nodes_nodup (spec : List (α × EdgeSpec α)) :
    (StatusMap.build spec).graph.nodes.Nodup := by
  unfold StatusMap.build
  exact foldl_buildStep_nodes_nodup (nodup_foldl_addNode List.nodup_nil)

theorem build_graph_wf (spec : List (α × EdgeSpec α)) :
    GraphWF (StatusMap.build spec).graph := by
  unfold StatusMap.build
  apply foldl_buildStep_wf
  intro e he
  cases he

theorem mem_keys_build {spec : List (α × EdgeSpec α)} {k : α}
    (h : k ∈ spec.map Prod.fst) : k ∈ (StatusMap.build spec).graph.nodes := by
  unfold StatusMap.build
  exact foldl_buildStep_nodes_mono (mem_foldl_addNode.mpr (Or.inr h))

theorem build_edge_of_target {spec : List (α × EdgeSpec α)} {a b : α}
    {es : EdgeSpec α} (hnd : (spec.map Prod.fst).Nodup)
    (ha : (a, es) ∈ spec) (hb : b ∈ es.targets) :
    (a, b) ∈ (StatusMap.build spec).graph.edges := by
  unfold StatusMap.build
  apply foldl_buildStep_edge _ (lookupSpec_of_mem hnd ha) hb
  exact mem_foldl_addNode.mpr (Or.inr (List.mem_map.mpr ⟨(a, es), ha, rfl⟩))

/-! ## Case analysis of `validate_transition` -/

theorem validate_from_absent {m : StatusMap α} {f t : α}
    (hf : f ∉ m.graph.nodes) :
    m.validateTransition f t = .error (.statusNotFoundFrom f) := by
  unfold StatusMap.validateTransition
  rw [if_pos hf]

theorem validate_to_absent {m : StatusMap α} {f t : α}
    (hf : f ∈ m.graph.nodes) (ht : t ∉ m.graph.nodes) :
    m.validateTransition f t = .error (.statusNotFoundTo t) := by
  unfold StatusMap.validateTransition
  rw [if_neg (not_not_intro hf), if_pos ht]

theorem validate_self {m : StatusMap α} {s : α} (h : s ∈ m.graph.nodes) :
    m.validateTransition s s = .ok () := by
  unfold StatusMap.validateTransition
  rw [if_neg (not_not_intro h), if_neg (not_not_intro h), if_pos (Or.inl rfl)]

theorem validate_direct_edge {m : StatusMap α} {f t : α}
    (hf : f ∈ m.graph.nodes) (ht : t ∈ m.graph.nodes)
    (he : (f, t) ∈ m.graph.edges) : m.validateTransition f t = .ok () := by
  unfold StatusMap.validateTransition
  rw [if_neg (not_not_intro hf), if_neg (not_not_intro ht), if_pos (Or.inr he)]

theorem validate_classify {m : StatusMap α} {f t : α}
    (hf : f ∈ m.graph.nodes) (ht : t ∈ m.graph.nodes) (hne : f ≠ t)
    (hedge : (f, t) ∉ m.graph.edges) :
    m.validateTransition f t =
      if t ∈ ancestors m.graph f ∧ t ∈ descendants m.graph f then
        .error (.ambiguousTransition f t)
      else if t ∈ descendants m.graph f then .error (.futureTransition f t)
      else if t ∈ ancestors m.graph f then .error (.pastTransition f t)
      else .error (.transitionNotFound f t) := by
  unfold StatusMap.validateTransition
  rw [if_neg (not_not_intro hf), if_neg (not_not_intro ht), if_neg]
  rintro (h | h)
  · exact hne h
  · exact hedge h

theorem validate_ambiguous {m : StatusMap α} {f t : α}
    (hf : f ∈ m.graph.nodes) (ht : t ∈ m.graph.nodes) (hne : f ≠ t)
    (hedge : (f, t) ∉ m.graph.edges)
    (h1 : Reach1 m.graph.edges f t) (h2 : Reach1 m.graph.edges t f) :
    m.validateTransition f t = .error (.ambiguousTransition f t) := by
  rw [validate_classify hf ht hne hedge,
    if_pos ⟨mem_ancestors.mpr ⟨Ne.symm hne, h2⟩, mem_descendants.mpr ⟨Ne.symm hne, h1⟩⟩]

theorem validate_future {m : StatusMap α} {f t : α}
    (hf : f ∈ m.graph.nodes) (ht : t ∈ m.graph.nodes) (hne : f ≠ t)
    (hedge : (f, t) ∉ m.graph.edges)
    (h1 : Reach1 m.graph.edges f t) (h2 : ¬ Reach1 m.graph.edges t f) :
    m.validateTransition f t = .error (.futureTransition f t) := by
  rw [validate_classify hf ht hne hedge,
    if_neg (fun hc => h2 (mem_ancestors.mp hc.1).2),
    if_pos (mem_descendants.mpr ⟨Ne.symm hne, h1⟩)]

theorem validate_past {m : StatusMap α} {f t : α}
    (hf : f ∈ m.graph.nodes) (ht : t ∈ m.graph.nodes) (hne : f ≠ t)
    (hedge : (f, t) ∉ m.graph.edges)
    (h1 : ¬ Reach1 m.graph.edges f t) (h2 : Reach1 m.graph.edges t f) :
    m.validateTransition f t = .error (.pastTransition f t) := by
  rw [validate_classify hf ht hne hedge,
    if_neg (fun hc => h1 (mem_descendants.mp hc.2).2),
    if_neg (fun hc => h1 (mem_descendants.mp hc).2),
    if_pos (mem_ancestors.mpr ⟨Ne.symm hne, h2⟩)]

/-! ## Lemmas about the reachability cache -/

theorem getAncestorsCached_spec {c : ReachCache α} (hwf : c.WF)
    (g : DiGraph α) (s : α) :
    (getAncestorsCached c g s).1 = ancestors g s ∧
      (getAncestorsCached c g s).2.WF := by
  unfold getAncestorsCached
  split
  next p hp =>
    have hmem := List.mem_of_find?_eq_some hp
    have hkey : p.1 = (g, s) := by simpa using List.find?_some hp
    refine ⟨?_, hwf⟩
    rw [hwf.1 p hmem, hkey]
  next hp =>
    refine ⟨rfl, ?_, hwf.2⟩
    intro p hp2
    rcases List.mem_append.mp hp2 with h | h
    · exact hwf.1 p h
    · have hpe : p = ((g, s), ancestors g s) := by simpa using h
      rw [hpe]

theorem getDescendantsCached_spec {c : ReachCache α} (hwf : c.WF)
    (g : DiGraph α) (s : α) :
    (getDescendantsCached c g s).1 = descendants g s ∧
      (getDescendantsCached c g s).2.WF := by
  unfold getDescendantsCached
  split
  next p hp =>
    have hmem := List.mem_of_find?_eq_some hp
    have hkey : p.1 = (g, s) := by simpa using List.find?_some hp
    refine ⟨?_, hwf⟩
    rw [hwf.2 p hmem, hkey]
  next hp =>
    refine ⟨rfl, hwf.1, ?_⟩
    intro p hp2
    rcases List.mem_append.mp hp2 with h | h
    · exact hwf.2 p h
    · have hpe : p = ((g, s), descendants g s) := by simpa using h
      rw [hpe]

theorem validateTransitionCached_spec {m : StatusMap α} {c : ReachCache α}
    (hwf : c.WF) (f t : α) :
    (m.validateTransitionCached c f t).1 = m.validateTransition f t ∧
      (m.validateTransitionCached c f t).2.WF := by
  unfold StatusMap.validateTransitionCached StatusMap.validateTransition
  by_cases h1 : f ∉ m.graph.nodes
  · rw [if_pos h1, if_pos h1]
    exact ⟨rfl, hwf⟩
  rw [if_neg h1, if_neg h1]
  by_cases h2 : t ∉ m.graph.nodes
  · rw [if_pos h2, if_pos h2]
    exact ⟨rfl, hwf⟩
  rw [if_neg h2, if_neg h2]
  by_cases h3 : f = t ∨ (f, t) ∈ m.graph.edges
  · rw [if_pos h3, if_pos h3]
    exact ⟨rfl, hwf⟩
  rw [if_neg h3, if_neg h3]
  obtain ⟨ha1, ha2⟩ := getAncestorsCached_spec hwf m.graph f
  obtain ⟨hd1, hd2⟩ := getDescendantsCached_spec ha2 m.graph f
  constructor
  · show (if t ∈ (getAncestorsCached c m.graph f).1 ∧
        t ∈ (getDescendantsCached (getAncestorsCached c m.graph f).2 m.graph f).1
        then Except.error (TransitionError.ambiguousTransition f t)
      else if t ∈ (getDescendantsCached (getAncestorsCached c m.graph f).2
          m.graph f).1 then Except.error (TransitionError.futureTransition f t)
      else if t ∈ (getAncestorsCached c m.graph f).1 then
        Except.error (TransitionError.pastTransition f t)
      else Except.error (TransitionError.transitionNotFound f t)) =
      (if t ∈ ancestors m.graph f ∧ t ∈ descendants m.graph f then
        Except.error (TransitionError.ambiguousTransition f t)
      else if t ∈ descendants m.graph f then
        Except.error (TransitionError.futureTransition f t)
      else if t ∈ ancestors m.graph f then
        Except.error (TransitionError.pastTransition f t)
      else Except.error (TransitionError.transitionNotFound f t))
    rw [ha1, hd1]
  · show (getDescendantsCached (getAncestorsCached c m.graph f).2 m.graph f).2.WF
    exact hd2

theorem validate_unrelated {m : StatusMap α} {f t : α}
    (hf : f ∈ m.graph.nodes) (ht : t ∈ m.graph.nodes) (hne : f ≠ t)
    (hedge : (f, t) ∉ m.graph.edges)
    (h1 : ¬ Reach1 m.graph.edges f t) (h2 : ¬ Reach1 m.graph.edges t f) :
    m.validateTransition f t = .error (.transitionNotFound f t) := by
  rw [validate_classify hf ht hne hedge,
    if_neg (fun hc => h1 (mem_descendants.mp hc.2).2),
    if_neg (fun hc => h1 (mem_descendants.mp hc).2),
    if_neg (fun hc => h2 (mem_ancestors.mp hc).2)]

theorem not_reach1_of_not_mem {es : List (α × α)} {s t : α}
    (h : t ∉ reachableFrom es s) : ¬ Reach1 es s t :=
  fun hr => h (reachableFrom_complete hr)

theorem validate_no_from_error {m : StatusMap α} {f t s : α}
    (hf : f ∈ m.graph.nodes) :
    m.validateTransition f t ≠ .error (.statusNotFoundFrom s) := by
  unfold StatusMap.validateTransition
  rw [if_neg (not_not_intro hf)]
  by_cases h2 : t ∉ m.graph.nodes
  · rw [if_pos h2]; simp
  rw [if_neg h2]
  by_cases h3 : f = t ∨ (f, t) ∈ m.graph.edges
  · rw [if_pos h3]; simp
  rw [if_neg h3]
  show (if t ∈ ancestors m.graph f ∧ t ∈ descendants m.graph f then
      Except.error (TransitionError.ambiguousTransition f t)
    else if t ∈ descendants m.graph f then
      Except.error (TransitionError.futureTransition f t)
    else if t ∈ ancestors m.graph f then
      Except.error (TransitionError.pastTransition f t)
    else Except.error (TransitionError.transitionNotFound f t)) ≠
    Except.error (TransitionError.statusNotFoundFrom s)
  split
  · simp
  split
  · simp
  split <;> simp

theorem validate_no_to_error {m : StatusMap α} {f t : α}
    (ht : t ∈ m.graph.nodes) :
    m.validateTransition f t ≠ .error (.statusNotFoundTo t) := by
  unfold StatusMap.validateTransition
  by_cases h1 : f ∉ m.graph.nodes
  · rw [if_pos h1]; simp
  rw [if_neg h1, if_neg (not_not_intro ht)]
  by_cases h3 : f = t ∨ (f, t) ∈ m.graph.edges
  · rw [if_pos h3]; simp
  rw [if_neg h3]
  show (if t ∈ ancestors m.graph f ∧ t ∈ descendants m.graph f then
      Except.error (TransitionError.ambiguousTransition f t)
    else if t ∈ descendants m.graph f then
      Except.error (TransitionError.futureTransition f t)
    else if t ∈ ancestors m.graph f then
      Except.error (TransitionError.pastTransition f t)
    else Except.error (TransitionError.transitionNotFound f t)) ≠
    Except.error (TransitionError.statusNotFoundTo t)
  split
  · simp
  split
  · simp
  split <;> simp

/-! ## The claims -/

/-- C1: for every status that is a node of the map, `validate_transition`
from the status to itself succeeds, and for every declared edge a -> b of
the map, `validate_transition(map, a, b)` succeeds; both outcomes follow
from the equality/direct-edge shortcut, before any reachability check. -/
theorem claim_C1 (spec : List (α × EdgeSpec α)) (s a b : α)
    (hs : s ∈ (StatusMap.build spec).graph.nodes)
    (hab : (a, b) ∈ (StatusMap.build spec).graph.edges) :
    (StatusMap.build spec).validateTransition s s = .ok () ∧
      (StatusMap.build spec).validateTransition a b = .ok () := by
  obtain ⟨ha, hb⟩ := build_graph_wf spec _ hab
  exact ⟨validate_self hs, validate_direct_edge ha hb hab⟩

theorem claim_C1_witness :
    ((0 : Nat) ∈ (StatusMap.build specOne).graph.nodes) ∧
      (((0 : Nat), (1 : Nat)) ∈ (StatusMap.build specOne).graph.edges) ∧
      (StatusMap.build specOne).validateTransition 0 0 = .ok () ∧
      (StatusMap.build specOne).validateTransition 0 1 = .ok () :=
  ⟨by decide, by decide,
    (claim_C1 specOne 0 0 1 (by decide) (by decide)).1,
    (claim_C1 specOne 0 0 1 (by decide) (by decide)).2⟩

/-- C2: in an acyclic map containing edges a -> b and b -> c but no direct
edge a -> c, `validate_transition(map, a, c)` fails with
`FutureTransitionError` and `validate_transition(map, c, a)` fails with
`PastTransitionError`. -/
theorem claim_C2 (spec : List (α × EdgeSpec α)) (a b c : α)
    (hacyc : Acyclic (StatusMap.build spec).graph.edges)
    (hab : (a, b) ∈ (StatusMap.build spec).graph.edges)
    (hbc : (b, c) ∈ (StatusMap.build spec).graph.edges)
    (hnac : (a, c) ∉ (StatusMap.build spec).graph.edges) :
    (StatusMap.build spec).validateTransition a c =
        .error (.futureTransition a c) ∧
      (StatusMap.build spec).validateTransition c a =
        .error (.pastTransition c a) := by
  have hwf := build_graph_wf spec
  obtain ⟨ha, _⟩ := hwf _ hab
  obtain ⟨_, hc⟩ := hwf _ hbc
  have hrac : Reach1 (StatusMap.build spec).graph.edges a c :=
    Reach1.tail (Reach1.single hab) hbc
  have hnca : ¬ Reach1 (StatusMap.build spec).graph.edges c a :=
    fun h => hacyc a (hrac.trans h)
  have hne : a ≠ c := by
    intro heq
    subst heq
    exact hacyc a hrac
  have hnca_edge : (c, a) ∉ (StatusMap.build spec).graph.edges :=
    fun h => hacyc a (hrac.tail h)
  exact ⟨validate_future ha hc hne hnac hrac hnca,
    validate_past hc ha (Ne.symm hne) hnca_edge hnca hrac⟩

theorem claim_C2_witness :
    (((0 : Nat), (1 : Nat)) ∈ (StatusMap.build specLinear).graph.edges) ∧
      (((1 : Nat), (2 : Nat)) ∈ (StatusMap.build specLinear).graph.edges) ∧
      (((0 : Nat), (2 : Nat)) ∉ (StatusMap.build specLinear).graph.edges) ∧
      (StatusMap.build specLinear).validateTransition 0 2 =
        .error (.futureTransition 0 2) ∧
      (StatusMap.build specLinear).validateTransition 2 0 =
        .error (.pastTransition 2 0) :=
  ⟨by decide, by decide, by decide,
    (claim_C2 specLinear 0 1 2 (acyclic_of_check (by decide)) (by decide)
      (by decide) (by decide)).1,
    (claim_C2 specLinear 0 1 2 (acyclic_of_check (by decide)) (by decide)
      (by decide) (by decide)).2⟩

/-- C3: for distinct statuses both present in the map with no direct edge
between them, when the target is both an ancestor and a descendant of the
source the classifier fails with `AmbiguousTransitionError`, and the
situation forces a cycle through both nodes (a walk from source to target
and a walk back). -/
theorem claim_C3 (spec : List (α × EdgeSpec α)) (f t : α) (hne : f ≠ t)
    (hf : f ∈ (StatusMap.build spec).graph.nodes)
    (ht : t ∈ (StatusMap.build spec).graph.nodes)
    (hedge : (f, t) ∉ (StatusMap.build spec).graph.edges)
    (hanc : t ∈ ancestors (StatusMap.build spec).graph f)
    (hdesc : t ∈ descendants (StatusMap.build spec).graph f) :
    (StatusMap.build spec).validateTransition f t =
        .error (.ambiguousTransition f t) ∧
      CycleThrough (StatusMap.build spec).graph.edges f t := by
  have h1 := (mem_descendants.mp hdesc).2
  have h2 := (mem_ancestors.mp hanc).2
  exact ⟨validate_ambiguous hf ht hne hedge h1 h2, h1, h2⟩

theorem claim_C3_witness :
    (((0 : Nat), (2 : Nat)) ∉ (StatusMap.build specCycle).graph.edges) ∧
      ((2 : Nat) ∈ ancestors (StatusMap.build specCycle).graph 0) ∧
      ((2 : Nat) ∈ descendants (StatusMap.build specCycle).graph 0) ∧
      (StatusMap.build specCycle).validateTransition 0 2 =
        .error (.ambiguousTransition 0 2) ∧
      CycleThrough (StatusMap.build specCycle).graph.edges 0 2 :=
  ⟨by decide, by decide, by decide,
    (claim_C3 specCycle 0 2 (by decide) (by decide) (by decide) (by decide)
      (by decide) (by decide)).1,
    (claim_C3 specCycle 0 2 (by decide) (by decide) (by decide) (by decide)
      (by decide) (by decide)).2⟩

/-- C4: for distinct statuses both present in the map, with no direct edge
and no directed walk between them in either direction, the classifier
fails with `TransitionNotFoundError`. -/
theorem claim_C4 (spec : List (α × EdgeSpec α)) (x y : α) (hne : x ≠ y)
    (hx : x ∈ (StatusMap.build spec).graph.nodes)
    (hy : y ∈ (StatusMap.build spec).graph.nodes)
    (hedge : (x, y) ∉ (StatusMap.build spec).graph.edges)
    (h1 : ¬ Reach1 (StatusMap.build spec).graph.edges x y)
    (h2 : ¬ Reach1 (StatusMap.build spec).graph.edges y x) :
    (StatusMap.build spec).validateTransition x y =
      .error (.transitionNotFound x y) :=
  validate_unrelated hx hy hne hedge h1 h2

theorem claim_C4_witness :
    ((0 : Nat) ∈ (StatusMap.build specSplit).graph.nodes) ∧
      ((2 : Nat) ∈ (StatusMap.build specSplit).graph.nodes) ∧
      (((0 : Nat), (2 : Nat)) ∉ (StatusMap.build specSplit).graph.edges) ∧
      (StatusMap.build specSplit).validateTransition 0 2 =
        .error (.transitionNotFound 0 2) :=
  ⟨by decide, by decide, by decide,
    claim_C4 specSplit 0 2 (by decide) (by decide) (by decide) (by decide)
      (not_reach1_of_not_mem (by decide)) (not_reach1_of_not_mem (by decide))⟩

/-- C5: when the source status is absent the classifier fails with
`StatusNotFoundError` naming the source (even if the target is absent as
well), and when only the target is absent it fails with
`StatusNotFoundError` naming the target; both checks precede everything
else. -/
theorem claim_C5 (spec : List (α × EdgeSpec α)) (a b : α) :
    (a ∉ (StatusMap.build spec).graph.nodes →
      (StatusMap.build spec).validateTransition a b =
        .error (.statusNotFoundFrom a)) ∧
    (a ∈ (StatusMap.build spec).graph.nodes →
      b ∉ (StatusMap.build spec).graph.nodes →
      (StatusMap.build spec).validateTransition a b =
        .error (.statusNotFoundTo b)) :=
  ⟨fun ha => validate_from_absent ha, fun ha hb => validate_to_absent ha hb⟩

theorem claim_C5_witness :
    (StatusMap.build specIso).validateTransition 5 6 =
        .error (.statusNotFoundFrom 5) ∧
      (StatusMap.build specIso).validateTransition 0 6 =
        .error (.statusNotFoundTo 6) :=
  ⟨(claim_C5 specIso 5 6).1 (by decide),
    (claim_C5 specIso 0 6).2 (by decide) (by decide)⟩

/-- C6: the claim says `get_validations` returns the exact ordered hook
list for the edge and an empty list (without raising) when no validations
were declared.  The code does neither: `_add_validation` overwrites
`_validations[from][to]` with each single method, so for hooks
`["v1", "v2"]` the call returns the bare last method `"v2"`, and when no
validation was declared anywhere the `_validations` attribute was never
created, so `get_validations` raises `AttributeError`. -/
theorem claim_C6_bug :
    (StatusMap.build specHooks).getValidations "a" "b" = .hook "v2" ∧
      (StatusMap.build specHooks).getValidations "a" "b" ≠
        .hooks ["v1", "v2"] ∧
      (StatusMap.build specNoHooks).getValidations "a" "b" =
        .attributeError := by
  refine ⟨by decide, by decide, by decide⟩

/-- C7 as stated is false: `StatusMap.__init__` never references
`SpecificationError`; constructing from a non-mapping value fails at
`transitions.keys()` with a plain `AttributeError`. -/
theorem claim_C7_counterexample :
    tryInit (BuildInput.nonMapping : BuildInput Nat) =
        .error .attributeError ∧
      tryInit (BuildInput.nonMapping : BuildInput Nat) ≠
        .error .specificationError := by
  refine ⟨rfl, by decide⟩

/-- C7 amended: construction never fails with `SpecificationError`; a
non-mapping specification fails with the `AttributeError` raised by
`transitions.keys()`. -/
theorem claim_C7_amended (inp : BuildInput α) :
    tryInit inp ≠ .error .specificationError ∧
      tryInit (BuildInput.nonMapping : BuildInput α) =
        .error .attributeError := by
  constructor
  · cases inp <;> simp [tryInit]
  · rfl

/-- C8: after construction every top-level key of the specification is a
node of the graph, and every declared target of an entry (plain or
metadata-shaped) yields the corresponding directed edge. -/
theorem claim_C8 (spec : List (α × EdgeSpec α))
    (hnd : (spec.map Prod.fst).Nodup) (k : α) (hk : k ∈ spec.map Prod.fst)
    (a : α) (es : EdgeSpec α) (ha : (a, es) ∈ spec) (b : α)
    (hb : b ∈ es.targets) :
    k ∈ (StatusMap.build spec).graph.nodes ∧
      (a, b) ∈ (StatusMap.build spec).graph.edges :=
  ⟨mem_keys_build hk, build_edge_of_target hnd ha hb⟩

theorem claim_C8_witness :
    ((0 : Nat) ∈ (StatusMap.build specMix).graph.nodes) ∧
      (((2 : Nat), (3 : Nat)) ∈ (StatusMap.build specMix).graph.edges) :=
  claim_C8 specMix (by decide) 0 (by decide) 2 (.meta [(3, [])]) (by decide)
    3 (by decide)

/-- C9: `validate_transition` is deterministic and cache-insensitive:
with any well-formed cache state its outcome equals the pure outcome (so
any two well-formed cache states give identical outcomes), and the only
side effect is that the resulting cache state is again well formed. -/
theorem claim_C9 (m : StatusMap α) (c c2 : ReachCache α)
    (hwf : c.WF) (hwf2 : c2.WF) (f t : α) :
    (m.validateTransitionCached c f t).1 = m.validateTransition f t ∧
      (m.validateTransitionCached c f t).1 =
        (m.validateTransitionCached c2 f t).1 ∧
      (m.validateTransitionCached c f t).2.WF := by
  obtain ⟨h1, h2⟩ := validateTransitionCached_spec hwf f t
  obtain ⟨h3, _⟩ := validateTransitionCached_spec hwf2 f t
  exact ⟨h1, by rw [h1, h3], h2⟩

theorem claim_C9_witness :
    (mapCache.validateTransitionCached ⟨[], []⟩ 0 2).1 =
        mapCache.validateTransition 0 2 ∧
      (mapCache.validateTransitionCached ⟨[], []⟩ 0 2).1 =
        (mapCache.validateTransitionCached cachePre 0 2).1 := by
  have hempty : (⟨[], []⟩ : ReachCache Nat).WF :=
    ⟨fun p hp => absurd hp (List.not_mem_nil p),
      fun p hp => absurd hp (List.not_mem_nil p)⟩
  have hpre : cachePre.WF := by
    refine ⟨fun p hp => ?_, fun p hp => absurd hp (List.not_mem_nil p)⟩
    rw [List.mem_singleton.mp hp]
  exact ⟨(claim_C9 mapCache ⟨[], []⟩ cachePre hempty hpre 0 2).1,
    (claim_C9 mapCache ⟨[], []⟩ cachePre hempty hpre 0 2).2.1⟩

/-- C10: a status that appears only as a declared target (not as a
top-level key) is auto-registered: it is a node, counted by `len`
(duplicate-free node list), visible to iteration, the `statuses` tuple and
the membership test, and `validate_transition` involving it never fails
with a `StatusNotFoundError` naming it. -/
theorem claim_C10 (spec : List (α × EdgeSpec α))
    (hnd : (spec.map Prod.fst).Nodup) (a : α) (es : EdgeSpec α) (t u : α)
    (hnk : t ∉ spec.map Prod.fst) (ha : (a, es) ∈ spec)
    (ht : t ∈ es.targets) :
    t ∈ (StatusMap.build spec).graph.nodes ∧
      (StatusMap.build spec).statusCount =
        (StatusMap.build spec).graph.nodes.length ∧
      (StatusMap.build spec).graph.nodes.Nodup ∧
      t ∈ (StatusMap.build spec).iterStatuses ∧
      t ∈ (StatusMap.build spec).statuses ∧
      (StatusMap.build spec).containsStatus t = true ∧
      (StatusMap.build spec).validateTransition t t = .ok () ∧
      (StatusMap.build spec).validateTransition t u ≠
        .error (.statusNotFoundFrom t) ∧
      (StatusMap.build spec).validateTransition u t ≠
        .error (.statusNotFoundTo t) := by
  have hedge := build_edge_of_target hnd ha ht
  have htn : t ∈ (StatusMap.build spec).graph.nodes :=
    (build_graph_wf spec _ hedge).2
  refine ⟨htn, rfl, build_nodes_nodup spec, htn, htn, ?_, validate_self htn,
    validate_no_from_error htn, validate_no_to_error htn⟩
  simp [StatusMap.containsStatus, StatusMap.getitem, htn]

theorem claim_C10_witness :
    ((1 : Nat) ∉ specOne.map Prod.fst) ∧
      ((1 : Nat) ∈ (StatusMap.build specOne).graph.nodes) ∧
      (StatusMap.build specOne).containsStatus 1 = true ∧
      (StatusMap.build specOne).validateTransition 1 1 = .ok () ∧
      (StatusMap.build specOne).validateTransition 1 99 ≠
        .error (.statusNotFoundFrom 1) ∧
      (StatusMap.build specOne).validateTransition 99 1 ≠
        .error (.statusNotFoundTo 1) := by
  have h := claim_C10 specOne (by decide) 0 (.plain [1]) 1 99 (by decide)
    (by decide) (by decide)
  exact ⟨by decide, h.1, h.2.2.2.2.2.1, h.2.2.2.2.2.2.1, h.2.2.2.2.2.2.2.1,
    h.2.2.2.2.2.2.2.2⟩

end StatusMapValidator
